import Mathlib

/-!
Verification of the CMS coverage harvest / change-detection scripts.

The Lean definitions below are shallow embeddings of the Python functions in
`scripts/`:

* `compute_changes.py` — `normalize_current`, `compute_changes` (the canonical
  snapshot-diff engine; `diff_changes.py` is an unused 3-tuple historical
  variant and is not the subject of the spec's diff contract);
* `harvest_shard.py` — `_slice_for_shard` and the per-document loop of `main`;
* `coverage_api.py` — the `_get` transport wrapper (tenacity retry policy)
  and the `_try_table` identifier-resolution loop;
* `normalize.py` — `norm_article_code_row`, `_infer_system`, `_infer_coverage`.

Python strings are modelled as Lean `String`s compared by code points,
Python dicts of JSON values as association lists `List (String × PyVal)`,
and absent dict fields as `Option`.
-/

/-- Characters stripped by Python `str.strip()` (the ASCII whitespace set:
space, tab, LF, CR, VT, FF). -/
def pySpace (c : Char) : Bool :=
  c = ' ' || c = '\t' || c = '\n' || c = '\r' || c.toNat = 11 || c.toNat = 12

/-- `str.strip()` on a character list: drop `pySpace` characters from both ends. -/
def pyStripL (l : List Char) : List Char :=
  ((l.dropWhile pySpace).reverse.dropWhile pySpace).reverse

/-- Python `s.strip()`. -/
def pyStrip (s : String) : String :=
  String.mk (pyStripL s.data)

/-- Python `s.lower()` (accurate on ASCII, which is all the scripts compare). -/
def lowerStr (s : String) : String :=
  String.mk (s.data.map Char.toLower)

/-- Lexicographic strict order on lists, given a strict order on elements.
Mirrors Python's comparison of strings (element = code point) and of tuples
(element = component). -/
def llLtB {α : Type} (lt : α → α → Bool) : List α → List α → Bool
  | [], [] => false
  | [], _ :: _ => true
  | _ :: _, [] => false
  | a :: as, b :: bs => if lt a b then true else if lt b a then false else llLtB lt as bs

theorem llLtB_asymm {α : Type} (lt : α → α → Bool)
    (hA : ∀ a b, lt a b = true → lt b a = false) :
    ∀ x y, llLtB lt x y = true → llLtB lt y x = false := by
  intro x
  induction x with
  | nil => intro y h; cases y <;> simp_all [llLtB]
  | cons a as ih =>
    intro y h
    cases y with
    | nil => simp [llLtB] at h
    | cons b bs =>
      simp only [llLtB] at h ⊢
      by_cases hab : lt a b = true
      · have hba := hA a b hab
        simp [hab, hba]
      · have hab' : lt a b = false := by
          cases hE : lt a b
          · rfl
          · exact absurd hE hab
        by_cases hba : lt b a = true
        · simp [hab', hba] at h
        · have hba' : lt b a = false := by
            cases hE : lt b a
            · rfl
            · exact absurd hE hba
          simp [hab', hba'] at h ⊢
          exact ih bs h

theorem llLtB_conn {α : Type} (lt : α → α → Bool)
    (hC : ∀ a b, lt a b = false → lt b a = false → a = b) :
    ∀ x y, llLtB lt x y = false → llLtB lt y x = false → x = y := by
  intro x
  induction x with
  | nil => intro y h _; cases y <;> simp_all [llLtB]
  | cons a as ih =>
    intro y h h'
    cases y with
    | nil => simp [llLtB] at h'
    | cons b bs =>
      simp only [llLtB] at h h'
      by_cases hab : lt a b = true
      · simp [hab] at h
      · have hab' : lt a b = false := by
          cases hE : lt a b
          · rfl
          · exact absurd hE hab
        by_cases hba : lt b a = true
        · simp [hba] at h'
        · have hba' : lt b a = false := by
            cases hE : lt b a
            · rfl
            · exact absurd hE hba
          simp [hab', hba'] at h h'
          have hhead := hC a b hab' hba'
          have htail := ih bs h h'
          rw [hhead, htail]

theorem llLtB_trans {α : Type} (lt : α → α → Bool)
    (hA : ∀ a b, lt a b = true → lt b a = false)
    (hC : ∀ a b, lt a b = false → lt b a = false → a = b)
    (hT : ∀ a b c, lt a b = true → lt b c = true → lt a c = true) :
    ∀ x y z, llLtB lt x y = true → llLtB lt y z = true → llLtB lt x z = true := by
  intro x
  induction x with
  | nil =>
    intro y z hxy hyz
    cases y with
    | nil => simp [llLtB] at hxy
    | cons b bs => cases z with
      | nil => simp [llLtB] at hyz
      | cons c cs => simp [llLtB]
  | cons a as ih =>
    intro y z hxy hyz
    cases y with
    | nil => simp [llLtB] at hxy
    | cons b bs =>
      cases z with
      | nil => simp [llLtB] at hyz
      | cons c cs =>
        simp only [llLtB] at hxy hyz ⊢
        by_cases hab : lt a b = true
        · by_cases hbc : lt b c = true
          · simp [hT a b c hab hbc]
          · have hbc' : lt b c = false := by
              cases hE : lt b c
              · rfl
              · exact absurd hE hbc
            by_cases hcb : lt c b = true
            · simp [hbc', hcb] at hyz
            · have hcb' : lt c b = false := by
                cases hE : lt c b
                · rfl
                · exact absurd hE hcb
              have : b = c := hC b c hbc' hcb'
              subst this
              simp [hab]
        · have hab' : lt a b = false := by
            cases hE : lt a b
            · rfl
            · exact absurd hE hab
          by_cases hba : lt b a = true
          · simp [hab', hba] at hxy
          · have hba' : lt b a = false := by
              cases hE : lt b a
              · rfl
              · exact absurd hE hba
            have hEq : a = b := hC a b hab' hba'
            subst hEq
            simp [hab', hba'] at hxy
            by_cases hac : lt a c = true
            · simp [hac]
            · have hac' : lt a c = false := by
                cases hE : lt a c
                · rfl
                · exact absurd hE hac
              by_cases hca : lt c a = true
              · simp [hac', hca] at hyz
              · have hca' : lt c a = false := by
                  cases hE : lt c a
                  · rfl
                  · exact absurd hE hca
                have : a = c := hC a c hac' hca'
                subst this
                simp [hac', hca'] at hyz ⊢
                exact ih bs cs hxy hyz

/-- Strict order on characters by code point (Python's). -/
def chLt (a b : Char) : Bool := Nat.blt a.toNat b.toNat

theorem chLt_iff (a b : Char) : chLt a b = true ↔ a.toNat < b.toNat := by
  simp [chLt, Nat.blt_eq]

theorem chLt_asymm : ∀ a b, chLt a b = true → chLt b a = false := by
  intro a b h
  have h1 := (chLt_iff a b).1 h
  cases hE : chLt b a
  · rfl
  · exact absurd ((chLt_iff b a).1 hE) (by omega)

theorem chLt_conn : ∀ a b, chLt a b = false → chLt b a = false → a = b := by
  intro a b h h'
  have h1 : ¬ a.toNat < b.toNat := fun hc => absurd ((chLt_iff a b).2 hc) (by simp [h])
  have h2 : ¬ b.toNat < a.toNat := fun hc => absurd ((chLt_iff b a).2 hc) (by simp [h'])
  have hnat : a.toNat = b.toNat := by omega
  have hval : a.val = b.val := UInt32.ext (by simpa [Char.toNat] using hnat)
  exact Char.ext hval

theorem chLt_trans : ∀ a b c, chLt a b = true → chLt b c = true → chLt a c = true := by
  intro a b c h h'
  have h1 := (chLt_iff a b).1 h
  have h2 := (chLt_iff b c).1 h'
  exact (chLt_iff a c).2 (by omega)

/-- Python's `s < t` on strings: lexicographic by code point. -/
def strLt (s t : String) : Bool := llLtB chLt s.data t.data

theorem strLt_asymm : ∀ a b, strLt a b = true → strLt b a = false := fun a b =>
  llLtB_asymm chLt chLt_asymm a.data b.data

theorem strLt_conn : ∀ a b, strLt a b = false → strLt b a = false → a = b := by
  intro a b h h'
  have hdata := llLtB_conn chLt chLt_conn a.data b.data h h'
  cases a
  cases b
  exact congrArg String.mk hdata

theorem strLt_trans : ∀ a b c, strLt a b = true → strLt b c = true → strLt a c = true :=
  fun a b c => llLtB_trans chLt chLt_asymm chLt_conn chLt_trans a.data b.data c.data

/-- The diff key: the 4-tuple `(doc_type, doc_id, code_system, code)`. -/
abbrev Key := String × String × String × String

/-- The component list of a key, for lexicographic comparison (Python compares
tuples componentwise, left to right). -/
def keyComps (k : Key) : List String := [k.1, k.2.1, k.2.2.1, k.2.2.2]

/-- Python's `<` on two diff keys. -/
def keyLt (x y : Key) : Bool := llLtB strLt (keyComps x) (keyComps y)

theorem keyLt_asymm : ∀ x y, keyLt x y = true → keyLt y x = false := fun x y =>
  llLtB_asymm strLt strLt_asymm (keyComps x) (keyComps y)

theorem keyLt_conn : ∀ x y, keyLt x y = false → keyLt y x = false → x = y := by
  intro x y h h'
  have hc := llLtB_conn strLt strLt_conn (keyComps x) (keyComps y) h h'
  obtain ⟨x1, x2, x3, x4⟩ := x
  obtain ⟨y1, y2, y3, y4⟩ := y
  simp [keyComps] at hc
  obtain ⟨h1, h2, h3, h4⟩ := hc
  rw [h1, h2, h3, h4]

theorem keyLt_trans : ∀ x y z, keyLt x y = true → keyLt y z = true → keyLt x z = true :=
  fun x y z => llLtB_trans strLt strLt_asymm strLt_conn strLt_trans _ _ _

/-- Non-strict order used to sort keys (`sorted(all_keys)` in the source sorts
ascending with respect to this total order). -/
def keyLe (x y : Key) : Prop := keyLt y x = false

instance : DecidableRel keyLe := fun x y => inferInstanceAs (Decidable (keyLt y x = false))

instance : IsTotal Key keyLe := by
  constructor
  intro x y
  by_cases h : keyLt y x = true
  · right
    exact keyLt_asymm y x h
  · left
    cases hE : keyLt y x
    · exact hE
    · exact absurd hE h

instance : IsTrans Key keyLe := by
  constructor
  intro x y z hxy hyz
  cases hE : keyLt z x
  · exact hE
  · exfalso
    cases hyz' : keyLt y z with
    | true =>
      have hcontr := keyLt_trans y z x hyz' hE
      rw [hxy] at hcontr
      exact Bool.false_ne_true hcontr
    | false =>
      have hEq : y = z := keyLt_conn y z hyz' hyz
      subst hEq
      rw [hxy] at hE
      exact Bool.false_ne_true hE

instance : IsAntisymm Key keyLe := by
  constructor
  intro x y hxy hyx
  exact keyLt_conn x y hyx hxy

/-- `sorted(...)` on a list of keys: the unique `keyLe`-sorted permutation. -/
def sortKeys (ks : List Key) : List Key := ks.insertionSort keyLe

theorem sortKeys_sorted (ks : List Key) : List.Sorted keyLe (sortKeys ks) :=
  List.sorted_insertionSort keyLe ks

theorem sortKeys_perm (ks : List Key) : List.Perm (sortKeys ks) ks :=
  List.perm_insertionSort keyLe ks

/-! ## `compute_changes.py` — the snapshot-diff engine -/

/-- A CSV row as read by `compute_changes`: the five columns the function
accesses; a `none` field models an absent column in the input file. -/
structure DRow where
  doc_type : Option String
  doc_id : Option String
  code_system : Option String
  code : Option String
  coverage_flag : Option String
deriving DecidableEq

/-- Python `(x or "")` on an optional string field. -/
def orEmpty : Option String → String
  | none => ""
  | some s => s

/-- The `key(r)` helper of `compute_changes`: the stripped 4-tuple
`(doc_type, doc_id, code_system, code)`. -/
def rkey (r : DRow) : Key :=
  (pyStrip (orEmpty r.doc_type), pyStrip (orEmpty r.doc_id),
   pyStrip (orEmpty r.code_system), pyStrip (orEmpty r.code))

/-- The stripped coverage flag stored into `prev_map` / `curr_map`. -/
def rflag (r : DRow) : String := pyStrip (orEmpty r.coverage_flag)

/-- The dict-building loop `for r in rows: m[key(r)] = flag(r)`, modelled as
iterated pointwise update of a partial map (later rows overwrite earlier). -/
def mapOf (rows : List DRow) : Key → Option String :=
  rows.foldl (fun m r => Function.update m (rkey r) (some (rflag r))) (fun _ => none)

/-- The key set of the dict built from `rows` (as a duplicate-free list; the
diff only uses it through membership, after sorting the union). -/
def keysOf (rows : List DRow) : List Key := (rows.map rkey).dedup

/-- One record of `codes_changes.csv`. -/
structure ChangeRec where
  change_type : String
  doc_type : String
  doc_id : String
  code_system : String
  code : String
  prev_flag : String
  curr_flag : String
deriving DecidableEq

/-- The body of the `for k in sorted(all_keys)` loop: classify one key from the
two maps, or skip it. -/
def emitChange (pm cm : Key → Option String) (k : Key) : Option ChangeRec :=
  match pm k, cm k with
  | none, some cf => some ⟨"Added", k.1, k.2.1, k.2.2.1, k.2.2.2, "", cf⟩
  | some pf, none => some ⟨"Removed", k.1, k.2.1, k.2.2.1, k.2.2.2, pf, ""⟩
  | some pf, some cf =>
      if pf ≠ cf then some ⟨"FlagChanged", k.1, k.2.1, k.2.2.1, k.2.2.2, pf, cf⟩ else none
  | none, none => none

/-- `compute_changes(prev_rows, curr_rows)`: build both key→flag maps, walk the
sorted union of their key sets, and classify each key. -/
def computeChanges (prev curr : List DRow) : List ChangeRec :=
  (sortKeys ((keysOf prev ++ keysOf curr).dedup)).filterMap
    (emitChange (mapOf prev) (mapOf curr))

/-- The key carried by an output change record. -/
def changeKey (c : ChangeRec) : Key := (c.doc_type, c.doc_id, c.code_system, c.code)

/-- The flag of the last row of `rows` whose key is `k` (what a Python dict
holds after the build loop). -/
def lastFlag (rows : List DRow) (k : Key) : Option String :=
  (rows.reverse.find? (fun r => decide (rkey r = k))).map rflag

theorem foldl_update_apply (rows : List DRow) (m : Key → Option String) (k : Key) :
    rows.foldl (fun m r => Function.update m (rkey r) (some (rflag r))) m k
      = (lastFlag rows k).or (m k) := by
  induction rows generalizing m with
  | nil => simp [lastFlag]
  | cons r rs ih =>
    simp only [List.foldl_cons]
    rw [ih]
    simp only [lastFlag, List.reverse_cons, List.find?_append]
    cases hfind : rs.reverse.find? (fun r => decide (rkey r = k)) with
    | some r' => simp [Option.or]
    | none =>
      simp only [Option.or_eq_bif, Bool.cond_eq_ite, List.find?_cons, List.find?_nil]
      by_cases hk : rkey r = k
      · simp [hk, Function.update_apply]
      · have hk' : ¬ k = rkey r := fun h => hk h.symm
        simp [hk, hk', Function.update_apply]

theorem mapOf_apply (rows : List DRow) (k : Key) : mapOf rows k = lastFlag rows k := by
  rw [mapOf, foldl_update_apply]
  simp

theorem mapOf_ne_none_iff (rows : List DRow) (k : Key) :
    mapOf rows k ≠ none ↔ k ∈ rows.map rkey := by
  rw [mapOf_apply, lastFlag]
  constructor
  · intro h
    cases hfind : rows.reverse.find? (fun r => decide (rkey r = k)) with
    | none =>
      rw [hfind] at h
      simp at h
    | some r =>
      have hmem := List.mem_reverse.mp (List.mem_of_find?_eq_some hfind)
      have hkey : rkey r = k := by simpa using List.find?_some hfind
      exact List.mem_map.mpr ⟨r, hmem, hkey⟩
  · intro hmem
    obtain ⟨r, hr, hkey⟩ := List.mem_map.mp hmem
    have hex : ∃ x ∈ rows.reverse, (fun r => decide (rkey r = k)) x = true :=
      ⟨r, List.mem_reverse.mpr hr, by simp [hkey]⟩
    have hsome := List.find?_isSome.mpr hex
    cases hfind : rows.reverse.find? (fun r => decide (rkey r = k)) with
    | none =>
      rw [hfind] at hsome
      simp at hsome
    | some r' =>
      simp

theorem emitChange_key (pm cm : Key → Option String) (k : Key) (c : ChangeRec)
    (h : emitChange pm cm k = some c) : changeKey c = k := by
  unfold emitChange at h
  cases hp : pm k <;> cases hc : cm k <;> rw [hp, hc] at h
  · simp at h
  · simp only [Option.some.injEq] at h
    rw [← h]
    rfl
  · simp only [Option.some.injEq] at h
    rw [← h]
    rfl
  · by_cases hne : (pm k).get (by simp [hp]) ≠ (cm k).get (by simp [hc])
    · simp only [ne_eq, ite_not] at h
      split at h
      · simp at h
      · simp only [Option.some.injEq] at h
        rw [← h]
        rfl
    · simp only [ne_eq, ite_not] at h
      split at h
      · simp at h
      · simp only [Option.some.injEq] at h
        rw [← h]
        rfl

theorem filter_filterMap_emit (pm cm : Key → Option String) :
    ∀ (ks : List Key), ks.Nodup → ∀ k,
    ((ks.filterMap (emitChange pm cm)).filter (fun c => decide (changeKey c = k)))
      = if k ∈ ks then (emitChange pm cm k).toList else [] := by
  intro ks
  induction ks with
  | nil => intro _ k; simp
  | cons a ks ih =>
    intro hnd k
    have hna : a ∉ ks := (List.nodup_cons.mp hnd).1
    have hnd' : ks.Nodup := (List.nodup_cons.mp hnd).2
    simp only [List.filterMap_cons]
    cases hE : emitChange pm cm a with
    | none =>
      rw [ih hnd' k]
      by_cases hk : k = a
      · subst hk
        simp [hE, hna]
      · simp [List.mem_cons, hk]
    | some c =>
      have hkey : changeKey c = a := emitChange_key pm cm a c hE
      simp only [List.filter_cons]
      by_cases hk : k = a
      · subst hk
        rw [ih hnd' k]
        simp [hkey, hna, hE]
      · have : (decide (changeKey c = k)) = false := by
          simp [hkey]
          exact fun h => hk h.symm
        rw [this]
        simp only [Bool.false_eq_true, if_false]
        rw [ih hnd' k]
        simp [List.mem_cons, hk]

theorem mem_allKeys_iff (prev curr : List DRow) (k : Key) :
    k ∈ (keysOf prev ++ keysOf curr).dedup
      ↔ (mapOf prev k ≠ none ∨ mapOf curr k ≠ none) := by
  rw [List.mem_dedup, List.mem_append, keysOf, keysOf, List.mem_dedup, List.mem_dedup,
    mapOf_ne_none_iff, mapOf_ne_none_iff]

theorem sortKeys_allKeys_nodup (prev curr : List DRow) :
    (sortKeys ((keysOf prev ++ keysOf curr).dedup)).Nodup :=
  ((sortKeys_perm _).nodup_iff).mpr (List.nodup_dedup _)

/-- C1: per key `(doc_type, doc_id, code_system, code)`, the diff emits exactly
one `Added` record (flags `""` / curr's flag) when the key is only in `curr`,
exactly one `Removed` record (prev's flag / `""`) when only in `prev`, exactly
one `FlagChanged` record carrying both flags when present in both with
differing flags, and no record when present in both with equal flags. -/
theorem diff_classifies_each_key (prev curr : List DRow) (k : Key) :
    (mapOf prev k = none → ∀ cf, mapOf curr k = some cf →
      (computeChanges prev curr).filter (fun c => decide (changeKey c = k))
        = [⟨"Added", k.1, k.2.1, k.2.2.1, k.2.2.2, "", cf⟩])
    ∧ (∀ pf, mapOf prev k = some pf → mapOf curr k = none →
      (computeChanges prev curr).filter (fun c => decide (changeKey c = k))
        = [⟨"Removed", k.1, k.2.1, k.2.2.1, k.2.2.2, pf, ""⟩])
    ∧ (∀ pf cf, mapOf prev k = some pf → mapOf curr k = some cf → pf ≠ cf →
      (computeChanges prev curr).filter (fun c => decide (changeKey c = k))
        = [⟨"FlagChanged", k.1, k.2.1, k.2.2.1, k.2.2.2, pf, cf⟩])
    ∧ (∀ f, mapOf prev k = some f → mapOf curr k = some f →
      (computeChanges prev curr).filter (fun c => decide (changeKey c = k)) = []) := by
  have hnd := sortKeys_allKeys_nodup prev curr
  have hfil := filter_filterMap_emit (mapOf prev) (mapOf curr) _ hnd k
  have hmem_iff : k ∈ sortKeys ((keysOf prev ++ keysOf curr).dedup)
      ↔ (mapOf prev k ≠ none ∨ mapOf curr k ≠ none) := by
    rw [(sortKeys_perm _).mem_iff]
    exact mem_allKeys_iff prev curr k
  refine ⟨?_, ?_, ?_, ?_⟩
  · intro hp cf hc
    have hk := hmem_iff.mpr (Or.inr (by simp [hc]))
    simp only [computeChanges]
    rw [hfil]
    simp [hk, emitChange, hp, hc]
  · intro pf hp hc
    have hk := hmem_iff.mpr (Or.inl (by simp [hp]))
    simp only [computeChanges]
    rw [hfil]
    simp [hk, emitChange, hp, hc]
  · intro pf cf hp hc hne
    have hk := hmem_iff.mpr (Or.inl (by simp [hp]))
    simp only [computeChanges]
    rw [hfil]
    simp [hk, emitChange, hp, hc, hne]
  · intro f hp hc
    simp only [computeChanges]
    rw [hfil]
    by_cases hk : k ∈ sortKeys ((keysOf prev ++ keysOf curr).dedup) <;>
      simp [hk, emitChange, hp, hc]

/-- Concrete instantiation of `diff_classifies_each_key` (the Added branch of
the spec's diff-classification example). -/
theorem diff_classifies_each_key_witness :
    (computeChanges [] [⟨some "Article", some "59636", some "ICD10", some "E11.9", some "covered"⟩]).filter
        (fun c => decide (changeKey c = ("Article", "59636", "ICD10", "E11.9")))
      = [⟨"Added", "Article", "59636", "ICD10", "E11.9", "", "covered"⟩] :=
  (diff_classifies_each_key []
      [⟨some "Article", some "59636", some "ICD10", some "E11.9", some "covered"⟩]
      ("Article", "59636", "ICD10", "E11.9")).1 rfl "covered" (by decide)

theorem filterMap_emit_keys_sublist (pm cm : Key → Option String) :
    ∀ ks : List Key, List.Sublist ((ks.filterMap (emitChange pm cm)).map changeKey) ks := by
  intro ks
  induction ks with
  | nil => simp
  | cons a ks ih =>
    simp only [List.filterMap_cons]
    cases hE : emitChange pm cm a with
    | none => exact ih.cons a
    | some c =>
      simp only [List.map_cons]
      rw [emitChange_key pm cm a c hE]
      exact ih.cons₂ a

/-- C3: the diff's output is strictly ascending in the key
`(doc_type, doc_id, code_system, code)` — deterministic, key-sorted for every
pair of inputs, and in particular not grouped by change type. -/
theorem diff_output_key_sorted (prev curr : List DRow) :
    ((computeChanges prev curr).map changeKey).Pairwise (fun a b => keyLe a b ∧ a ≠ b) := by
  have hsor : List.Sorted keyLe (sortKeys ((keysOf prev ++ keysOf curr).dedup)) :=
    sortKeys_sorted _
  have hnd := sortKeys_allKeys_nodup prev curr
  have hpair : (sortKeys ((keysOf prev ++ keysOf curr).dedup)).Pairwise
      (fun a b => keyLe a b ∧ a ≠ b) := hsor.and hnd
  exact List.Pairwise.sublist (filterMap_emit_keys_sublist _ _ _) hpair

/-- C9: the diff is a function of the final key→flag map of each snapshot
(duplicate keys collapse last-write-wins); `mapOf` is exactly "flag of the
last row with that key"; and the output never carries a key twice. -/
theorem diff_last_write_wins_extensional (prev₁ curr₁ prev₂ curr₂ : List DRow)
    (hp : ∀ k, mapOf prev₁ k = mapOf prev₂ k)
    (hc : ∀ k, mapOf curr₁ k = mapOf curr₂ k) :
    computeChanges prev₁ curr₁ = computeChanges prev₂ curr₂
    ∧ (∀ rows k, mapOf rows k = lastFlag rows k)
    ∧ (∀ k, ((computeChanges prev₁ curr₁).filter
        (fun c => decide (changeKey c = k))).length ≤ 1) := by
  have hemit : emitChange (mapOf prev₁) (mapOf curr₁)
      = emitChange (mapOf prev₂) (mapOf curr₂) := by
    funext k
    unfold emitChange
    rw [hp k, hc k]
  have hnd₁ := sortKeys_allKeys_nodup prev₁ curr₁
  have hnd₂ := sortKeys_allKeys_nodup prev₂ curr₂
  have hmem : ∀ k, k ∈ sortKeys ((keysOf prev₁ ++ keysOf curr₁).dedup)
      ↔ k ∈ sortKeys ((keysOf prev₂ ++ keysOf curr₂).dedup) := by
    intro k
    rw [(sortKeys_perm _).mem_iff, (sortKeys_perm _).mem_iff,
      mem_allKeys_iff, mem_allKeys_iff, hp k, hc k]
  have hperm := (List.perm_ext_iff_of_nodup hnd₁ hnd₂).mpr hmem
  have hkeys : sortKeys ((keysOf prev₁ ++ keysOf curr₁).dedup)
      = sortKeys ((keysOf prev₂ ++ keysOf curr₂).dedup) :=
    List.eq_of_perm_of_sorted hperm (sortKeys_sorted _) (sortKeys_sorted _)
  refine ⟨?_, mapOf_apply, ?_⟩
  · simp only [computeChanges]
    rw [hkeys, hemit]
  · intro k
    have hfil := filter_filterMap_emit (mapOf prev₁) (mapOf curr₁) _ hnd₁ k
    simp only [computeChanges]
    rw [hfil]
    split
    · cases emitChange (mapOf prev₁) (mapOf curr₁) k <;> simp [Option.toList]
    · simp

/-- Concrete instantiation of `diff_last_write_wins_extensional`: a snapshot
with a duplicate key diffs identically to the snapshot holding only the last
duplicate. -/
theorem diff_last_write_wins_extensional_witness :
    computeChanges
        [⟨some "Article", some "1", some "HCPCS", some "J1", some "covered"⟩,
         ⟨some "Article", some "1", some "HCPCS", some "J1", some "noncovered"⟩] []
      = computeChanges [⟨some "Article", some "1", some "HCPCS", some "J1", some "noncovered"⟩] [] :=
  (diff_last_write_wins_extensional
      [⟨some "Article", some "1", some "HCPCS", some "J1", some "covered"⟩,
       ⟨some "Article", some "1", some "HCPCS", some "J1", some "noncovered"⟩] []
      [⟨some "Article", some "1", some "HCPCS", some "J1", some "noncovered"⟩] []
      (fun k => by
        simp only [mapOf, List.foldl_cons, List.foldl_nil]
        have hkk : rkey ⟨some "Article", some "1", some "HCPCS", some "J1", some "covered"⟩
            = rkey ⟨some "Article", some "1", some "HCPCS", some "J1", some "noncovered"⟩ := by
          decide
        rw [hkk, Function.update_idem])
      (fun _ => rfl)).1

/-! ## `harvest_shard.py` — the work partitioner `_slice_for_shard` -/

/-- A JSON scalar stored in a harvested row (all the partitioner needs:
strings from the API and the integer `_pos` debug value). -/
inductive PyVal where
  | str (s : String)
  | int (n : Int)
deriving DecidableEq

/-- A Python dict with string keys: insertion-ordered bindings. -/
abbrev PyDict := List (String × PyVal)

/-- Python `d[k] = v`: overwrite the existing binding in place, else append. -/
def dictSet (d : PyDict) (k : String) (v : PyVal) : PyDict :=
  match d with
  | [] => [(k, v)]
  | (k', v') :: rest => if k' = k then (k', v) :: rest else (k', v') :: dictSet rest k v

/-- Python `d.get(k)`. -/
def dictGet (d : PyDict) (k : String) : Option PyVal :=
  match d with
  | [] => none
  | (k', v) :: rest => if k' = k then some v else dictGet rest k

/-- Drop every binding of `k` — used only to state properties "up to the
`_pos` debug key" (not an operation of the source). -/
def dictErase (d : PyDict) (k : String) : PyDict :=
  d.filter (fun p => decide (p.1 ≠ k))

/-- `_slice_for_shard(items, shard_index, shard_total)`: the items at positions
`pos` with `pos % shard_total == shard_index`, each copied (`dict(row)`) with a
`_pos` key recording the original global position. -/
def sliceForShard (items : List PyDict) (shardIndex shardTotal : Nat) : List PyDict :=
  (items.enum.filter (fun p => p.1 % shardTotal == shardIndex)).map
    (fun p => dictSet p.2 "_pos" (PyVal.int p.1))

/-- The multiset union of all shards' outputs for a given shard count. -/
def shardUnion (items : List PyDict) (shardTotal : Nat) : Multiset PyDict :=
  ∑ i ∈ Finset.range shardTotal, ((sliceForShard items i shardTotal : List PyDict) : Multiset PyDict)

/-- The shard-count clamp in `harvest_shard.main`
(`if shard_total < 1: shard_total = 1`). -/
def effShardTotal (t : Nat) : Nat := if t < 1 then 1 else t

theorem dictErase_dictSet (d : PyDict) (k : String) (v : PyVal) :
    dictErase (dictSet d k v) k = dictErase d k := by
  induction d with
  | nil => simp [dictSet, dictErase]
  | cons p rest ih =>
    by_cases h : p.1 = k
    · simp [dictSet, dictErase, List.filter_cons, h]
    · simp only [dictSet, dictErase, List.filter_cons] at ih ⊢
      simp only [ne_eq, decide_not] at ih ⊢
      simp [h, ih]

theorem dictGet_dictSet (d : PyDict) (k : String) (v : PyVal) :
    dictGet (dictSet d k v) k = some v := by
  induction d with
  | nil => simp [dictSet, dictGet]
  | cons p rest ih =>
    by_cases h : p.1 = k
    · simp [dictSet, dictGet, h]
    · simp [dictSet, dictGet, h, ih]

theorem filter_mod_multiset_sum {α β : Type} (h : α → β) (f : α → Nat) (M : Nat) :
    ∀ l : List α, (∀ a ∈ l, f a < M) →
    (∑ i ∈ Finset.range M, (((l.filter (fun a => f a == i)).map h : List β) : Multiset β))
      = ((l.map h : List β) : Multiset β) := by
  intro l
  induction l with
  | nil => simp
  | cons a t ih =>
    intro hlt
    have hfa : f a < M := hlt a (List.mem_cons_self a t)
    have ht : ∀ x ∈ t, f x < M := fun x hx => hlt x (List.mem_cons_of_mem a hx)
    have hsplit : ∀ i : Nat,
        ((((a :: t).filter (fun x => f x == i)).map h : List β) : Multiset β)
          = (if f a = i then ({h a} : Multiset β) else 0)
            + (((t.filter (fun x => f x == i)).map h : List β) : Multiset β) := by
      intro i
      by_cases hi : f a = i
      · simp [List.filter_cons, hi]
      · simp [List.filter_cons, hi]
    calc (∑ i ∈ Finset.range M, ((((a :: t).filter (fun x => f x == i)).map h : List β) : Multiset β))
        = ∑ i ∈ Finset.range M,
            ((if f a = i then ({h a} : Multiset β) else 0)
              + (((t.filter (fun x => f x == i)).map h : List β) : Multiset β)) :=
          Finset.sum_congr rfl (fun i _ => hsplit i)
      _ = (∑ i ∈ Finset.range M, if f a = i then ({h a} : Multiset β) else 0)
            + ∑ i ∈ Finset.range M, (((t.filter (fun x => f x == i)).map h : List β) : Multiset β) :=
          Finset.sum_add_distrib
      _ = ({h a} : Multiset β) + ((t.map h : List β) : Multiset β) := by
          rw [Finset.sum_ite_eq (Finset.range M) (f a) (fun _ => ({h a} : Multiset β)),
            if_pos (Finset.mem_range.mpr hfa), ih ht]
      _ = (((a :: t).map h : List β) : Multiset β) := by simp

theorem map_erase_of_map_set (l : List (Nat × PyDict)) :
    (l.map (fun p => dictSet p.2 "_pos" (PyVal.int p.1))).map (fun d => dictErase d "_pos")
      = l.map (fun p => dictErase p.2 "_pos") := by
  induction l with
  | nil => rfl
  | cons p t ih => simp only [List.map_cons, dictErase_dictSet, ih]

theorem enum_map_erase_snd (L : List PyDict) :
    L.enum.map (fun p => dictErase p.2 "_pos") = L.map (fun d => dictErase d "_pos") := by
  have h := List.enum_map_snd L
  calc L.enum.map (fun p => dictErase p.2 "_pos")
      = (L.enum.map Prod.snd).map (fun d => dictErase d "_pos") := by rw [List.map_map]; rfl
    _ = L.map (fun d => dictErase d "_pos") := by rw [h]

/-- C2 as stated fails on the code: `_slice_for_shard` copies each selected row
and adds a `_pos` debug key, so the union over all shards is not literally the
input (here: one empty row, one shard). -/
theorem shard_union_not_input_cx :
    shardUnion [[]] 1 ≠ (([[]] : List PyDict) : Multiset PyDict) := by
  rw [shardUnion, Finset.sum_range_one]
  intro hEq
  have hperm := Multiset.coe_eq_coe.mp hEq
  have hval : sliceForShard [[]] 0 1 = [[("_pos", PyVal.int 0)]] := by decide
  rw [hval] at hperm
  have hmem : ([("_pos", PyVal.int 0)] : PyDict) ∈ ([[]] : List PyDict) :=
    hperm.mem_iff.mp (List.mem_singleton_self _)
  simp at hmem

/-- C2 amended: every position of the input is assigned to exactly one shard —
after discarding the `_pos` debug key each emitted row is its source row, so
the multiset union over shard indices `0..M-1` of the `_pos`-stripped outputs
equals the `_pos`-stripped input (no element lost, none duplicated), and the
outputs of distinct shard indices are pairwise disjoint. -/
theorem shard_union_covers_input (L : List PyDict) (M : Nat) (hM : 1 ≤ M) :
    (∑ i ∈ Finset.range M,
        (((sliceForShard L i M).map (fun d => dictErase d "_pos") : List PyDict) : Multiset PyDict))
      = ((L.map (fun d => dictErase d "_pos") : List PyDict) : Multiset PyDict)
    ∧ ∀ i j, i < M → j < M → i ≠ j →
        ∀ x, x ∈ sliceForShard L i M → x ∉ sliceForShard L j M := by
  constructor
  · have hstrip : ∀ i, (sliceForShard L i M).map (fun d => dictErase d "_pos")
        = (L.enum.filter (fun p => p.1 % M == i)).map (fun p => dictErase p.2 "_pos") := by
      intro i
      rw [sliceForShard, map_erase_of_map_set]
    calc (∑ i ∈ Finset.range M,
            (((sliceForShard L i M).map (fun d => dictErase d "_pos") : List PyDict) : Multiset PyDict))
        = ∑ i ∈ Finset.range M,
            (((L.enum.filter (fun p => p.1 % M == i)).map (fun p => dictErase p.2 "_pos") : List PyDict) : Multiset PyDict) := by
          exact Finset.sum_congr rfl (fun i _ => by rw [hstrip i])
      _ = ((L.enum.map (fun p => dictErase p.2 "_pos") : List PyDict) : Multiset PyDict) := by
          exact filter_mod_multiset_sum (fun p => dictErase p.2 "_pos") (fun p => p.1 % M) M L.enum
            (fun a _ => Nat.mod_lt _ (by omega))
      _ = ((L.map (fun d => dictErase d "_pos") : List PyDict) : Multiset PyDict) := by
          rw [enum_map_erase_snd]
  · intro i j hi hj hne x hxi hxj
    obtain ⟨p, hp, hpx⟩ := List.mem_map.mp hxi
    obtain ⟨q, hq, hqx⟩ := List.mem_map.mp hxj
    have hpi : p.1 % M = i := by
      have := (List.mem_filter.mp hp).2
      simpa using this
    have hqj : q.1 % M = j := by
      have := (List.mem_filter.mp hq).2
      simpa using this
    have hgp : dictGet x "_pos" = some (PyVal.int p.1) := by
      rw [← hpx]
      exact dictGet_dictSet _ _ _
    have hgq : dictGet x "_pos" = some (PyVal.int q.1) := by
      rw [← hqx]
      exact dictGet_dictSet _ _ _
    have hpq : (p.1 : Int) = (q.1 : Int) := by
      rw [hgp] at hgq
      simpa using hgq
    have : p.1 = q.1 := by exact_mod_cast hpq
    rw [this, hqj] at hpi
    exact hne (hpi.symm ▸ rfl)

/-- Concrete instantiation of `shard_union_covers_input` with two shards. -/
theorem shard_union_covers_input_witness :
    (∑ i ∈ Finset.range 2,
        (((sliceForShard [[("a", PyVal.int 1)], []] i 2).map (fun d => dictErase d "_pos") : List PyDict) : Multiset PyDict))
      = (([[("a", PyVal.int 1)], []].map (fun d => dictErase d "_pos") : List PyDict) : Multiset PyDict) :=
  (shard_union_covers_input [[("a", PyVal.int 1)], []] 2 (by decide)).1

/-- C8 as stated fails on the code: with one shard the output row is not the
input row unchanged — it gains the `_pos` debug key. -/
theorem identity_partition_annotates_cx :
    sliceForShard [[("doc", PyVal.str "L1")]] 0 1 ≠ [[("doc", PyVal.str "L1")]] := by
  decide

/-- C8 amended: for shard_count ≤ 1 (clamped to 1 by `main`), shard 0 is
assigned every element of the input in the original order, each as the original
row copied with `_pos` set to its position; stripped of the `_pos` key, the
assigned sequence equals the (`_pos`-stripped) input exactly. -/
theorem single_shard_gets_all (L : List PyDict) (t : Nat) (ht : t ≤ 1) :
    sliceForShard L 0 (effShardTotal t)
      = L.enum.map (fun p => dictSet p.2 "_pos" (PyVal.int p.1))
    ∧ (sliceForShard L 0 (effShardTotal t)).map (fun d => dictErase d "_pos")
      = L.map (fun d => dictErase d "_pos") := by
  have hM : effShardTotal t = 1 := by
    unfold effShardTotal
    split
    · rfl
    · omega
  have h1 : sliceForShard L 0 (effShardTotal t)
      = L.enum.map (fun p => dictSet p.2 "_pos" (PyVal.int p.1)) := by
    rw [hM, sliceForShard]
    have hfil : L.enum.filter (fun p => p.1 % 1 == 0) = L.enum :=
      List.filter_eq_self.mpr (fun p _ => by simp [Nat.mod_one])
    rw [hfil]
  refine ⟨h1, ?_⟩
  rw [h1, map_erase_of_map_set, enum_map_erase_snd]

/-- Concrete instantiation of `single_shard_gets_all` with `shard_total = 0`
(clamped to 1). -/
theorem single_shard_gets_all_witness :
    sliceForShard [[("doc", PyVal.str "A1")]] 0 (effShardTotal 0)
      = [[("doc", PyVal.str "A1")]].enum.map (fun p => dictSet p.2 "_pos" (PyVal.int p.1))
    ∧ (sliceForShard [[("doc", PyVal.str "A1")]] 0 (effShardTotal 0)).map (fun d => dictErase d "_pos")
      = [[("doc", PyVal.str "A1")]].map (fun d => dictErase d "_pos") :=
  single_shard_gets_all [[("doc", PyVal.str "A1")]] 0 (by decide)

/-! ## `coverage_api.py` — transport (`_get` under tenacity) and resolver (`_try_table`) -/

/-- The parsed JSON body of one successful response: `meta` (only logged) and
the `data` array of rows (`none` models a body without a `data` list). -/
structure Payload where
  meta : Option PyDict
  data : Option (List PyDict)
deriving DecidableEq

/-- `_page_rows(payload)`: `payload.get("data") or []`, lists only. -/
def pageRows (p : Payload) : List PyDict :=
  match p.data with
  | some l => l
  | none => []

/-- The outcome of one physical HTTP attempt inside `_get`:
a 2xx response with a parsed body, a non-2xx status (`raise_for_status`
raises `requests.HTTPError`, converted to `_HTTPError`), or a network-level
`requests.RequestException` (also converted to `_HTTPError`). -/
inductive HttpAttempt where
  | ok (body : Payload)
  | httpErr (status : Nat)
  | netErr
deriving DecidableEq

/-- What `_get` propagates when all attempts fail: the `_HTTPError` built from
the last attempt. -/
inductive GetErr where
  | http (status : Nat)
  | net
deriving DecidableEq

/-- The tenacity loop around `_get`'s body: attempt `i` uses `env i`; every
`_HTTPError` is retried (`retry_if_exception_type(_HTTPError)`) until the
remaining attempt budget is spent, then the last exception is reraised
(`reraise=True`). Returns (number of attempts performed, outcome). -/
def getLoop (env : Nat → HttpAttempt) (i : Nat) : Nat → Nat × Except GetErr Payload
  | 0 => (i, Except.error GetErr.net)
  | rem + 1 =>
    match env i with
    | HttpAttempt.ok b => (i + 1, Except.ok b)
    | HttpAttempt.httpErr s =>
        if rem = 0 then (i + 1, Except.error (GetErr.http s)) else getLoop env (i + 1) rem
    | HttpAttempt.netErr =>
        if rem = 0 then (i + 1, Except.error GetErr.net) else getLoop env (i + 1) rem

/-- `stop_after_attempt(4)` in the source. -/
def tenacityAttempts : Nat := 4

/-- `_get(path, params, timeout)` as a function of the per-attempt outcomes. -/
def pyGet (env : Nat → HttpAttempt) : Nat × Except GetErr Payload :=
  getLoop env 0 tenacityAttempts

/-- C4 as stated fails on the code: on a plain 4xx such as 404 (not 401, 403
or 429) the transport does not stop after one attempt and does not hand the
status/body back as data — it retries up to the 4-attempt budget and then
raises `_HTTPError`. -/
theorem transport_plain_4xx_retried_cx :
    ¬ ((pyGet (fun _ => HttpAttempt.httpErr 404)).1 = 1)
    ∧ ¬ (∃ b, (pyGet (fun _ => HttpAttempt.httpErr 404)).2 = Except.ok b) := by
  constructor
  · decide
  · intro hex
    obtain ⟨b, hb⟩ := hex
    have herr : (pyGet (fun _ => HttpAttempt.httpErr 404)).2 = Except.error (GetErr.http 404) := rfl
    rw [herr] at hb
    exact Except.noConfusion hb

/-- C4 amended: `_get` treats every HTTP error uniformly — on a 4xx other than
401/403/429 (or any other failing status) it performs exactly 4 attempts
(tenacity's `stop_after_attempt(4)` retrying `_HTTPError`) and then propagates
the `_HTTPError` carrying the last status instead of returning the response;
the resolver recovers only by catching that exception. -/
theorem transport_4xx_four_attempts_then_raises (s : Nat) (env : Nat → HttpAttempt)
    (h4 : 400 ≤ s) (h5 : s < 500) (h401 : s ≠ 401) (h403 : s ≠ 403) (h429 : s ≠ 429)
    (henv : ∀ n, n < 4 → env n = HttpAttempt.httpErr s) :
    pyGet env = (4, Except.error (GetErr.http s)) := by
  have h0 := henv 0 (by omega)
  have h1 := henv 1 (by omega)
  have h2 := henv 2 (by omega)
  have h3 := henv 3 (by omega)
  simp [pyGet, tenacityAttempts, getLoop, h0, h1, h2, h3]

/-- Concrete instantiation of `transport_4xx_four_attempts_then_raises`
at status 404. -/
theorem transport_4xx_four_attempts_then_raises_witness :
    pyGet (fun _ => HttpAttempt.httpErr 404) = (4, Except.error (GetErr.http 404)) :=
  transport_4xx_four_attempts_then_raises 404 (fun _ => HttpAttempt.httpErr 404)
    (by decide) (by decide) (by decide) (by decide) (by decide) (fun _ _ => rfl)

/-- The outcome of one `_get` call made by `_try_table` for one id key:
either `_HTTPError` was raised (after `_get`'s internal retries) or a parsed
payload came back. -/
inductive CallOutcome where
  | raised
  | payload (p : Payload)
deriving DecidableEq

/-- Whether a call outcome yields a non-empty row list. -/
def nonEmptyRows : CallOutcome → Bool
  | CallOutcome.raised => false
  | CallOutcome.payload p => !(pageRows p).isEmpty

/-- The `for key in try_keys` loop of `_try_table`, over the outcomes of the
calls it makes (keys whose id value is missing are skipped by the source
before any call, so they do not appear in the sequence). Returns (number of
`_get` calls issued, rows returned). A raised `_HTTPError` is swallowed and
the loop continues; the first non-empty `data` list is returned; otherwise
`[]` after exhausting all keys. -/
def tryTable : List CallOutcome → Nat × List PyDict
  | [] => (0, [])
  | CallOutcome.raised :: rest =>
      let r := tryTable rest
      (r.1 + 1, r.2)
  | CallOutcome.payload p :: rest =>
      if (pageRows p).isEmpty then
        let r := tryTable rest
        (r.1 + 1, r.2)
      else (1, pageRows p)

/-- C5: if shape `k` (0-based) is the first whose call returns a non-empty
`data` array, the resolver issues exactly `k+1` calls and returns shape `k`'s
rows — it never tries a later shape, and shapes that raised a non-retryable
client error before `k` are skipped rather than aborting the resolution. -/
theorem resolver_short_circuit (cs : List CallOutcome) (k : Nat) (p : Payload)
    (hk : cs[k]? = some (CallOutcome.payload p))
    (hne : pageRows p ≠ [])
    (hbefore : ∀ j, j < k → ∀ q, cs[j]? = some q → nonEmptyRows q = false) :
    tryTable cs = (k + 1, pageRows p) := by
  induction cs generalizing k with
  | nil => simp at hk
  | cons c rest ih =>
    cases k with
    | zero =>
      simp only [List.getElem?_cons_zero, Option.some.injEq] at hk
      subst hk
      have hfalse : (pageRows p).isEmpty = false := by
        cases hE : (pageRows p).isEmpty
        · rfl
        · exact absurd (List.isEmpty_iff.mp hE) hne
      simp [tryTable, hfalse]
    | succ k' =>
      have hc0 : nonEmptyRows c = false := hbefore 0 (Nat.succ_pos k') c (by simp)
      have hk' : rest[k']? = some (CallOutcome.payload p) := by
        simpa using hk
      have hbefore' : ∀ j, j < k' → ∀ q, rest[j]? = some q → nonEmptyRows q = false := by
        intro j hj q hq
        exact hbefore (j + 1) (by omega) q (by simpa using hq)
      have hrest := ih k' hk' hbefore'
      cases c with
      | raised => simp [tryTable, hrest]
      | payload pc =>
        have hpc : (pageRows pc).isEmpty = true := by
          simp only [nonEmptyRows, Bool.not_eq_false'] at hc0
          exact hc0
        simp [tryTable, hpc, hrest]

/-- Concrete instantiation of `resolver_short_circuit`: the first shape 400s,
the second returns one row; exactly two calls are made. -/
theorem resolver_short_circuit_witness :
    tryTable
        [CallOutcome.raised,
         CallOutcome.payload ⟨none, some [[("code", PyVal.str "J1234")]]⟩]
      = (2, [[("code", PyVal.str "J1234")]]) :=
  resolver_short_circuit
    [CallOutcome.raised,
     CallOutcome.payload ⟨none, some [[("code", PyVal.str "J1234")]]⟩]
    1 ⟨none, some [[("code", PyVal.str "J1234")]]⟩ rfl (by decide)
    (fun j hj q hq => by
      interval_cases j
      · simp only [List.getElem?_cons_zero, Option.some.injEq] at hq
        rw [← hq]
        rfl)

/-! ## `harvest_shard.py` — per-document aggregation and zero-yield records -/

/-- The identifying fields of one harvested document (from the report row /
endpoint metadata). -/
structure DocInfo where
  docType : String
  docId : Option PyVal
  display : Option PyVal
  version : Option PyVal
deriving DecidableEq

/-- One output code row (`_write_rows` writes one CSV line per raw row of each
non-empty endpoint). -/
structure CodeOut where
  docType : String
  docId : Option PyVal
  display : Option PyVal
  version : Option PyVal
  endpoint : String
  row : PyDict
deriving DecidableEq

/-- One zero-yield (`nocodes`) record. -/
structure ZeroOut where
  docType : String
  docId : Option PyVal
  display : Option PyVal
  version : Option PyVal
  reason : String
deriving DecidableEq

/-- The per-document body of `harvest_shard.main`'s loop: `by_ep` maps each
endpoint to its fetched rows; `total = sum of row counts`; if any rows exist,
one code row is written per raw row of each non-empty endpoint, else exactly
one `nocodes` record with reason "no rows". Returns (code rows, zero-yield
records) contributed by this document. -/
def processDoc (d : DocInfo) (byEp : List (String × List PyDict)) :
    List CodeOut × List ZeroOut :=
  let total := (byEp.map (fun p => p.2.length)).sum
  if total ≠ 0 then
    ((byEp.filter (fun p => decide (p.2 ≠ []))).flatMap
        (fun p => p.2.map (fun r => ⟨d.docType, d.docId, d.display, d.version, p.1, r⟩)), [])
  else
    ([], [⟨d.docType, d.docId, d.display, d.version, "no rows"⟩])

/-- The whole shard loop: documents processed in order, both CSV streams
appended to. -/
def runShard (docs : List (DocInfo × List (String × List PyDict))) :
    List CodeOut × List ZeroOut :=
  docs.foldl (fun acc x =>
    (acc.1 ++ (processDoc x.1 x.2).1, acc.2 ++ (processDoc x.1 x.2).2)) ([], [])

theorem runShard_acc (docs : List (DocInfo × List (String × List PyDict))) :
    ∀ acc : List CodeOut × List ZeroOut,
    docs.foldl (fun acc x =>
        (acc.1 ++ (processDoc x.1 x.2).1, acc.2 ++ (processDoc x.1 x.2).2)) acc
      = (acc.1 ++ docs.flatMap (fun x => (processDoc x.1 x.2).1),
         acc.2 ++ docs.flatMap (fun x => (processDoc x.1 x.2).2)) := by
  induction docs with
  | nil => intro acc; simp
  | cons x t ih =>
    intro acc
    simp only [List.foldl_cons, List.flatMap_cons]
    rw [ih]
    simp [List.append_assoc]

/-- C6: a document whose applicable row families all return empty contributes
exactly one zero-yield record and no code rows; a document with at least one
non-empty family contributes no zero-yield record; and a shard's two outputs
are the per-document contributions concatenated in order. -/
theorem zero_yield_iff_all_families_empty (d : DocInfo)
    (byEp : List (String × List PyDict)) :
    ((∀ p ∈ byEp, p.2 = []) →
      (processDoc d byEp).2 = [⟨d.docType, d.docId, d.display, d.version, "no rows"⟩]
      ∧ (processDoc d byEp).1 = [])
    ∧ ((∃ p ∈ byEp, p.2 ≠ []) → (processDoc d byEp).2 = [])
    ∧ (∀ docs, runShard docs
        = (docs.flatMap (fun x => (processDoc x.1 x.2).1),
           docs.flatMap (fun x => (processDoc x.1 x.2).2))) := by
  refine ⟨?_, ?_, ?_⟩
  · intro hall
    have htot : (byEp.map (fun p => p.2.length)).sum = 0 := by
      rw [List.sum_eq_zero_iff]
      intro x hx
      obtain ⟨p, hp, hpx⟩ := List.mem_map.mp hx
      rw [← hpx, hall p hp]
      rfl
    simp [processDoc, htot]
  · intro hex
    obtain ⟨p, hp, hpne⟩ := hex
    have htot : (byEp.map (fun p => p.2.length)).sum ≠ 0 := by
      intro h0
      have := List.sum_eq_zero_iff.mp h0 p.2.length (List.mem_map.mpr ⟨p, hp, rfl⟩)
      exact hpne (List.length_eq_zero.mp this)
    simp [processDoc, htot]
  · intro docs
    rw [runShard, runShard_acc]
    simp

/-- Concrete instantiation of `zero_yield_iff_all_families_empty`: a document
whose two families both return empty yields exactly one zero-yield record. -/
theorem zero_yield_iff_all_families_empty_witness :
    (processDoc ⟨"Article", some (PyVal.str "59636"), none, none⟩
        [("code-table", []), ("icd10-covered", [])]).2
      = [⟨"Article", some (PyVal.str "59636"), none, none, "no rows"⟩]
    ∧ (processDoc ⟨"Article", some (PyVal.str "59636"), none, none⟩
        [("code-table", []), ("icd10-covered", [])]).1 = [] :=
  (zero_yield_iff_all_families_empty ⟨"Article", some (PyVal.str "59636"), none, none⟩
      [("code-table", []), ("icd10-covered", [])]).1
    (by
      intro p hp
      rcases List.mem_cons.mp hp with h | h
      · rw [h]
      · rw [List.mem_singleton.mp h])

/-! ## `normalize.py` — `norm_article_code_row` and its coverage inference -/

/-- Python truthiness of a JSON scalar (`""` and `0` are falsy). -/
def pyTruthyV : PyVal → Bool
  | PyVal.str s => decide (s ≠ "")
  | PyVal.int n => decide (n ≠ 0)

/-- Truthiness of `d.get(k)` (`None` is falsy). -/
def pyTruthyO : Option PyVal → Bool
  | none => false
  | some v => pyTruthyV v

/-- Python `x or d` for an optional lookup result `x` and fallback `d`. -/
def pyOrD (a : Option PyVal) (d : PyVal) : PyVal :=
  match a with
  | some v => if pyTruthyV v then v else d
  | none => d

/-- Python `str(v)` on a JSON scalar. -/
def pyStrOf : PyVal → String
  | PyVal.str s => s
  | PyVal.int n => toString n

def isPrefB {α : Type} [DecidableEq α] : List α → List α → Bool
  | [], _ => true
  | _ :: _, [] => false
  | a :: as, b :: bs => decide (a = b) && isPrefB as bs

def isInfB {α : Type} [DecidableEq α] : List α → List α → Bool
  | pat, [] => isPrefB pat []
  | pat, b :: rest => isPrefB pat (b :: rest) || isInfB pat rest

/-- Python `pat in hay` on strings (substring test). -/
def strContains (hay pat : String) : Bool := isInfB pat.data hay.data

/-- `_infer_system(row)`: substring-match the lowercased, space-joined field
names of the row. -/
def inferSystem (row : PyDict) : PyVal :=
  let keys := lowerStr (String.intercalate " " (row.map Prod.fst))
  if strContains keys "icd10" then PyVal.str "ICD10-CM"
  else if strContains keys "hcpc" || strContains keys "cpt" then PyVal.str "HCPCS/CPT"
  else if strContains keys "revenue" then PyVal.str "Revenue"
  else if strContains keys "bill" then PyVal.str "Bill Type"
  else PyVal.str "UNKNOWN"

/-- The probe string of `_infer_coverage`:
`str(row.get("covered") or row.get("is_covered") or row.get("covered_flag") or "").lower()`. -/
def covProbe (row : PyDict) : String :=
  lowerStr (pyStrOf (pyOrD (dictGet row "covered")
    (pyOrD (dictGet row "is_covered") (pyOrD (dictGet row "covered_flag") (PyVal.str "")))))

/-- `_infer_coverage(row)`. -/
def inferCoverage (row : PyDict) : PyVal :=
  let v := covProbe row
  if v = "true" ∨ v = "1" ∨ v = "yes" ∨ v = "y" then PyVal.str "covered"
  else if v = "false" ∨ v = "0" ∨ v = "no" ∨ v = "n" then PyVal.str "noncovered"
  else pyOrD (dictGet row "coverage_flag") (PyVal.str "n/a")

/-- The normalized article code row produced by `norm_article_code_row`. -/
structure ANorm where
  doc_id : String
  code_system : PyVal
  code : PyVal
  coverage_flag : PyVal
  notes : PyVal
  from_section : PyVal
deriving DecidableEq

/-- `norm_article_code_row(article_id, row)`. -/
def normArticleCodeRow (article_id : String) (row : PyDict) : ANorm :=
  { doc_id := article_id
    code_system := pyOrD (dictGet row "code_system")
      (pyOrD (dictGet row "system") (inferSystem row))
    code := pyOrD (dictGet row "code")
      (pyOrD (dictGet row "hcpc_code")
        (pyOrD (dictGet row "icd10_code")
          (pyOrD (dictGet row "revenue_code")
            (pyOrD (dictGet row "bill_type_code") (PyVal.str "")))))
    coverage_flag := pyOrD (dictGet row "coverage_flag")
      (pyOrD (dictGet row "covered_flag") (inferCoverage row))
    notes := pyOrD (dictGet row "notes")
      (pyOrD (dictGet row "description")
        (pyOrD (dictGet row "long_description") (PyVal.str "")))
    from_section := pyOrD (dictGet row "from_section") (PyVal.str "") }

/-- C7 as stated fails on the code: a row carrying no coverage information at
all gets `coverage_flag = "n/a"`, not the empty string the spec promises. -/
theorem norm_flag_default_cx :
    (normArticleCodeRow "59636" [("code", PyVal.str "J1234")]).coverage_flag
      = PyVal.str "n/a"
    ∧ PyVal.str "n/a" ≠ PyVal.str "" := by
  exact ⟨rfl, by decide⟩

/-- C7 amended: `coverage_flag` is the explicit `coverage_flag` field when
truthy, else the `covered_flag` field when truthy, else it is inferred from
the value of the `covered`/`is_covered`/`covered_flag` fields — a lowercased
probe in true/1/yes/y gives "covered", in false/0/no/n gives "noncovered" —
and otherwise it defaults to "n/a" (not ""); no endpoint information enters
the computation. -/
theorem norm_flag_value_based (row : PyDict) (aid : String) :
    (∀ v, dictGet row "coverage_flag" = some v → pyTruthyV v = true →
      (normArticleCodeRow aid row).coverage_flag = v)
    ∧ (pyTruthyO (dictGet row "coverage_flag") = false →
        ∀ v, dictGet row "covered_flag" = some v → pyTruthyV v = true →
        (normArticleCodeRow aid row).coverage_flag = v)
    ∧ (pyTruthyO (dictGet row "coverage_flag") = false →
        pyTruthyO (dictGet row "covered_flag") = false →
        (covProbe row = "true" ∨ covProbe row = "1" ∨ covProbe row = "yes" ∨ covProbe row = "y") →
        (normArticleCodeRow aid row).coverage_flag = PyVal.str "covered")
    ∧ (pyTruthyO (dictGet row "coverage_flag") = false →
        pyTruthyO (dictGet row "covered_flag") = false →
        (covProbe row = "false" ∨ covProbe row = "0" ∨ covProbe row = "no" ∨ covProbe row = "n") →
        (normArticleCodeRow aid row).coverage_flag = PyVal.str "noncovered")
    ∧ (pyTruthyO (dictGet row "coverage_flag") = false →
        pyTruthyO (dictGet row "covered_flag") = false →
        ¬ (covProbe row = "true" ∨ covProbe row = "1" ∨ covProbe row = "yes" ∨ covProbe row = "y") →
        ¬ (covProbe row = "false" ∨ covProbe row = "0" ∨ covProbe row = "no" ∨ covProbe row = "n") →
        (normArticleCodeRow aid row).coverage_flag = PyVal.str "n/a") := by
  have hflag : (normArticleCodeRow aid row).coverage_flag
      = pyOrD (dictGet row "coverage_flag")
          (pyOrD (dictGet row "covered_flag") (inferCoverage row)) := rfl
  refine ⟨?_, ?_, ?_, ?_, ?_⟩
  · intro v hv ht
    rw [hflag, hv]
    simp [pyOrD, ht]
  · intro hcf v hv ht
    rw [hflag, hv]
    cases hget : dictGet row "coverage_flag" with
    | none => simp [pyOrD, ht]
    | some w =>
      rw [hget] at hcf
      simp only [pyTruthyO] at hcf
      simp [pyOrD, hcf, ht]
  · intro hcf hcov hin
    rw [hflag]
    have hinfer : inferCoverage row = PyVal.str "covered" := by
      rw [inferCoverage]
      simp only [if_pos hin]
    rw [hinfer]
    cases hget : dictGet row "coverage_flag" with
    | none =>
      cases hget2 : dictGet row "covered_flag" with
      | none => simp [pyOrD]
      | some w2 =>
        rw [hget2] at hcov
        simp only [pyTruthyO] at hcov
        simp [pyOrD, hcov]
    | some w =>
      rw [hget] at hcf
      simp only [pyTruthyO] at hcf
      cases hget2 : dictGet row "covered_flag" with
      | none => simp [pyOrD, hcf]
      | some w2 =>
        rw [hget2] at hcov
        simp only [pyTruthyO] at hcov
        simp [pyOrD, hcf, hcov]
  · intro hcf hcov hin
    rw [hflag]
    have hnotin : ¬ (covProbe row = "true" ∨ covProbe row = "1"
        ∨ covProbe row = "yes" ∨ covProbe row = "y") := by
      rcases hin with h | h | h | h <;> rw [h] <;> decide
    have hinfer : inferCoverage row = PyVal.str "noncovered" := by
      rw [inferCoverage]
      simp only [if_neg hnotin, if_pos hin]
    rw [hinfer]
    cases hget : dictGet row "coverage_flag" with
    | none =>
      cases hget2 : dictGet row "covered_flag" with
      | none => simp [pyOrD]
      | some w2 =>
        rw [hget2] at hcov
        simp only [pyTruthyO] at hcov
        simp [pyOrD, hcov]
    | some w =>
      rw [hget] at hcf
      simp only [pyTruthyO] at hcf
      cases hget2 : dictGet row "covered_flag" with
      | none => simp [pyOrD, hcf]
      | some w2 =>
        rw [hget2] at hcov
        simp only [pyTruthyO] at hcov
        simp [pyOrD, hcf, hcov]
  · intro hcf hcov hnt hnf
    rw [hflag]
    have hinfer : inferCoverage row = pyOrD (dictGet row "coverage_flag") (PyVal.str "n/a") := by
      rw [inferCoverage]
      simp only [if_neg hnt, if_neg hnf]
    rw [hinfer]
    cases hget : dictGet row "coverage_flag" with
    | none =>
      cases hget2 : dictGet row "covered_flag" with
      | none => simp [pyOrD]
      | some w2 =>
        rw [hget2] at hcov
        simp only [pyTruthyO] at hcov
        simp [pyOrD, hcov]
    | some w =>
      rw [hget] at hcf
      simp only [pyTruthyO] at hcf
      cases hget2 : dictGet row "covered_flag" with
      | none => simp [pyOrD, hcf]
      | some w2 =>
        rw [hget2] at hcov
        simp only [pyTruthyO] at hcov
        simp [pyOrD, hcf, hcov]

/-- Concrete instantiation of `norm_flag_value_based`: a row whose only
coverage information is `covered = "True"` is inferred as "covered". -/
theorem norm_flag_value_based_witness :
    (normArticleCodeRow "59636" [("covered", PyVal.str "True")]).coverage_flag
      = PyVal.str "covered" :=
  (norm_flag_value_based [("covered", PyVal.str "True")] "59636").2.2.1
    rfl rfl (Or.inl (by decide))

/-! ## `compute_changes.py` — `normalize_current` -/

/-- An input CSV row as read by `normalize_current` (the nine columns it
consults; `none` models an absent column). -/
structure SrcRow where
  document_type : Option String
  doc_type : Option String
  document_id : Option String
  doc_id : Option String
  article_id : Option String
  code_system : Option String
  code : Option String
  description : Option String
  coverage_flag : Option String
deriving DecidableEq

/-- Python `x or y` where `x` is an optional string field and `y` a string. -/
def orS (a : Option String) (b : String) : String :=
  match a with
  | some s => if s = "" then b else s
  | none => b

def srcDocType (r : SrcRow) : String := pyStrip (orS r.document_type (orS r.doc_type ""))

def srcDocId (r : SrcRow) : String :=
  pyStrip (orS r.document_id (orS r.doc_id (orS r.article_id "")))

def srcCodeSystem (r : SrcRow) : String := pyStrip (orS r.code_system "")

def srcCode (r : SrcRow) : String := pyStrip (orS r.code "")

def srcDescription (r : SrcRow) : String := pyStrip (orS r.description "")

def srcCoverageFlag (r : SrcRow) : String := pyStrip (orS r.coverage_flag "")

/-- One output row of `codes_normalized.csv`. -/
structure NormRow where
  doc_type : String
  doc_id : String
  code_system : String
  code : String
  description : String
  coverage_flag : String
deriving DecidableEq

/-- The dict appended for one accepted input row. -/
def normRowOf (r : SrcRow) : NormRow :=
  ⟨srcDocType r, srcDocId r, srcCodeSystem r, srcCode r, srcDescription r, srcCoverageFlag r⟩

/-- `normalize_current`: per input row, strip the canonical fields, skip the
row if the stripped doc_id or code is empty, append the normalized dict. -/
def normalizeCurrent : List SrcRow → List NormRow
  | [] => []
  | r :: rest =>
    if srcDocId r = "" ∨ srcCode r = "" then normalizeCurrent rest
    else normRowOf r :: normalizeCurrent rest

theorem dropWhile_idem {α : Type} (p : α → Bool) :
    ∀ l : List α, (l.dropWhile p).dropWhile p = l.dropWhile p := by
  intro l
  induction l with
  | nil => simp
  | cons a t ih =>
    by_cases h : p a
    · simp [List.dropWhile_cons, h, ih]
    · simp [List.dropWhile_cons, h]

theorem head_dropWhile_false {α : Type} (p : α → Bool) :
    ∀ (l : List α) (a : α), (l.dropWhile p).head? = some a → p a = false := by
  intro l
  induction l with
  | nil => intro a h; simp at h
  | cons b t ih =>
    intro a h
    by_cases hb : p b
    · rw [List.dropWhile_cons, if_pos hb] at h
      exact ih a h
    · rw [List.dropWhile_cons, if_neg hb] at h
      simp only [List.head?_cons, Option.some.injEq] at h
      rw [← h]
      cases hE : p b
      · rfl
      · exact absurd hE hb

theorem dropWhile_eq_self_of_head {α : Type} (p : α → Bool) (l : List α)
    (h : ∀ a, l.head? = some a → p a = false) : l.dropWhile p = l := by
  cases l with
  | nil => rfl
  | cons a t =>
    have := h a rfl
    simp [List.dropWhile_cons, this]

theorem getLast?_append_right {α : Type} (s t : List α) (h : t ≠ []) :
    (s ++ t).getLast? = t.getLast? := by
  induction s with
  | nil => rfl
  | cons a s ih =>
    cases hs : s ++ t with
    | nil =>
      exact absurd (List.append_eq_nil.mp hs).2 h
    | cons b u =>
      rw [List.cons_append, hs, List.getLast?_cons_cons, ← hs, ih]

theorem getLast?_dropWhile {α : Type} (p : α → Bool) (z : List α)
    (h : z.dropWhile p ≠ []) : (z.dropWhile p).getLast? = z.getLast? := by
  obtain ⟨t, ht⟩ := List.dropWhile_suffix p (l := z)
  calc (z.dropWhile p).getLast? = (t ++ z.dropWhile p).getLast? :=
        (getLast?_append_right t _ h).symm
    _ = z.getLast? := by rw [ht]

theorem pyStripL_idem (l : List Char) : pyStripL (pyStripL l) = pyStripL l := by
  have hdef : pyStripL l = ((l.dropWhile pySpace).reverse.dropWhile pySpace).reverse := rfl
  cases hY : (l.dropWhile pySpace).reverse.dropWhile pySpace with
  | nil =>
    rw [hdef, hY]
    rfl
  | cons c cs =>
    have hYne : (l.dropWhile pySpace).reverse.dropWhile pySpace ≠ [] := by
      rw [hY]
      exact List.cons_ne_nil c cs
    have hstep1 : ((c :: cs).reverse).dropWhile pySpace = (c :: cs).reverse := by
      apply dropWhile_eq_self_of_head
      intro a ha
      rw [List.head?_reverse] at ha
      have hlast : (c :: cs).getLast? = (l.dropWhile pySpace).reverse.getLast? := by
        rw [← hY]
        exact getLast?_dropWhile pySpace _ hYne
      rw [hlast, List.getLast?_reverse] at ha
      exact head_dropWhile_false pySpace l a ha
    have hidem : (c :: cs).dropWhile pySpace = c :: cs := by
      rw [← hY, dropWhile_idem]
    rw [hdef, hY]
    simp only [pyStripL]
    rw [hstep1, List.reverse_reverse, hidem]

theorem pyStrip_idem (s : String) : pyStrip (pyStrip s) = pyStrip s := by
  rw [pyStrip, pyStrip]
  exact congrArg String.mk (pyStripL_idem s.data)

/-- C10: `normalize_current` outputs exactly the input rows whose stripped
doc_id and stripped code are both non-empty, in input order, each mapped to
the six stripped canonical fields; rows lacking a doc_id or code are silently
dropped (the function is total — never an error), and every emitted field is
whitespace-trimmed (stripping is idempotent on it). -/
theorem normalize_current_filters_and_trims (src : List SrcRow) :
    normalizeCurrent src
      = (src.filter (fun r => decide (¬ (srcDocId r = "" ∨ srcCode r = "")))).map normRowOf
    ∧ ∀ o ∈ normalizeCurrent src,
        pyStrip o.doc_type = o.doc_type ∧ pyStrip o.doc_id = o.doc_id
        ∧ pyStrip o.code_system = o.code_system ∧ pyStrip o.code = o.code
        ∧ pyStrip o.description = o.description
        ∧ pyStrip o.coverage_flag = o.coverage_flag := by
  have hfil : normalizeCurrent src
      = (src.filter (fun r => decide (¬ (srcDocId r = "" ∨ srcCode r = "")))).map normRowOf := by
    induction src with
    | nil => rfl
    | cons r rest ih =>
      by_cases h : srcDocId r = "" ∨ srcCode r = ""
      · rw [normalizeCurrent, if_pos h, ih, List.filter_cons]
        simp [h]
      · rw [normalizeCurrent, if_neg h, ih, List.filter_cons]
        simp [h]
  refine ⟨hfil, ?_⟩
  intro o ho
  rw [hfil] at ho
  obtain ⟨r, _, hro⟩ := List.mem_map.mp ho
  rw [← hro]
  exact ⟨pyStrip_idem _, pyStrip_idem _, pyStrip_idem _, pyStrip_idem _,
    pyStrip_idem _, pyStrip_idem _⟩

/-- Concrete instantiation of `normalize_current_filters_and_trims`: the
emitted fields of a concrete accepted row are strip-invariant. -/
theorem normalize_current_filters_and_trims_witness :
    pyStrip (normRowOf ⟨none, some " Article ", some "59636", none, none,
        some "ICD10", some " E11.9 ", none, some "covered"⟩).doc_type
      = (normRowOf ⟨none, some " Article ", some "59636", none, none,
        some "ICD10", some " E11.9 ", none, some "covered"⟩).doc_type
    ∧ pyStrip (normRowOf ⟨none, some " Article ", some "59636", none, none,
        some "ICD10", some " E11.9 ", none, some "covered"⟩).doc_id
      = (normRowOf ⟨none, some " Article ", some "59636", none, none,
        some "ICD10", some " E11.9 ", none, some "covered"⟩).doc_id
    ∧ pyStrip (normRowOf ⟨none, some " Article ", some "59636", none, none,
        some "ICD10", some " E11.9 ", none, some "covered"⟩).code_system
      = (normRowOf ⟨none, some " Article ", some "59636", none, none,
        some "ICD10", some " E11.9 ", none, some "covered"⟩).code_system
    ∧ pyStrip (normRowOf ⟨none, some " Article ", some "59636", none, none,
        some "ICD10", some " E11.9 ", none, some "covered"⟩).code
      = (normRowOf ⟨none, some " Article ", some "59636", none, none,
        some "ICD10", some " E11.9 ", none, some "covered"⟩).code
    ∧ pyStrip (normRowOf ⟨none, some " Article ", some "59636", none, none,
        some "ICD10", some " E11.9 ", none, some "covered"⟩).description
      = (normRowOf ⟨none, some " Article ", some "59636", none, none,
        some "ICD10", some " E11.9 ", none, some "covered"⟩).description
    ∧ pyStrip (normRowOf ⟨none, some " Article ", some "59636", none, none,
        some "ICD10", some " E11.9 ", none, some "covered"⟩).coverage_flag
      = (normRowOf ⟨none, some " Article ", some "59636", none, none,
        some "ICD10", some " E11.9 ", none, some "covered"⟩).coverage_flag :=
  (normalize_current_filters_and_trims
      [⟨none, some " Article ", some "59636", none, none,
        some "ICD10", some " E11.9 ", none, some "covered"⟩]).2
    (normRowOf ⟨none, some " Article ", some "59636", none, none,
        some "ICD10", some " E11.9 ", none, some "covered"⟩)
    (by decide)
